import Mathlib

/-!
Verification of the half-precision float codec in
`Source/CBOR/SwiftCBOR.h`.

The source provides two one-line inline functions:

  static inline float loadFromF16(const uint16_t *pointer) { return *(const __fp16 *)pointer; }
  static inline void storeAsF16(float value, uint16_t *pointer) { *(__fp16 *)pointer = value; }

Both delegate the numeric conversion to the compiler/hardware `__fp16`
(IEEE 754 binary16) support: `loadFromF16` widens a binary16 bit pattern
to binary32 (exact, since every finite binary16 value is representable in
binary32), and `storeAsF16` narrows a binary32 value to binary16 using the
default IEEE 754 rounding mode, round-to-nearest-even, with overflow to
signed infinity and gradual underflow to signed zero.

We embed both directions as pure functions on bit patterns represented as
`Nat`: a binary16 pattern is a `Nat < 2^16` (1 sign bit, 5 exponent bits,
10 mantissa bits) and a binary32 pattern is a `Nat < 2^32` (1 sign bit,
8 exponent bits, 23 mantissa bits).  The `__fp16` conversion semantics is
modelled from the spec, which pins it to IEEE 754 round-to-nearest-even;
the NaN payload handling (truncate the payload, set the quiet bit) follows
the usual hardware conversion and is only relied on to the extent the spec
requires: a NaN in gives some NaN out.
-/

namespace HalfFloatCodec

/-- Fuel-driven floor of the base-2 logarithm: `flog2Aux fuel n` is
`⌊log₂ n⌋` whenever `1 ≤ n < 2^fuel`. -/
def flog2Aux : Nat → Nat → Nat
  | 0, _ => 0
  | fuel+1, n => if n ≤ 1 then 0 else flog2Aux fuel (n / 2) + 1

/-- Floor of the base-2 logarithm, correct on all inputs `1 ≤ n < 2^32`
that arise in the codec. -/
def flog2 (n : Nat) : Nat := flog2Aux 32 n

/-- Round `M / 2^k` to the nearest integer, ties to even: the core
significand-rounding step of the binary32 → binary16 conversion. -/
def rneShift (M k : Nat) : Nat :=
  if k = 0 then M
  else if 2^(k-1) < M % 2^k then M / 2^k + 1
  else if M % 2^k < 2^(k-1) then M / 2^k
  else if (M / 2^k) % 2 = 0 then M / 2^k else M / 2^k + 1

/-- Biased exponent (bias 300) of the unit in the last place of the
binary16 result for an input magnitude `M * 2^(EB - 300)`:
`max (exponent - 10) (-24)`, in biased form. -/
def gBof (M EB : Nat) : Nat := max (flog2 M + EB - 10) 276

/-- Rounded integer significand: the input magnitude expressed in units
of the result's ulp `2^(gBof M EB - 300)`, rounded to nearest, ties to
even (exact when no right shift is needed). -/
def qof (M EB : Nat) : Nat :=
  if gBof M EB ≤ EB then M * 2^(EB - gBof M EB) else rneShift M (gBof M EB - EB)

/-- Magnitude part (low 15 bits) of the binary16 encoding of the value
`M * 2^(EB - 300)`, rounded to nearest, ties to even, with overflow to
infinity (`0x7C00`).  This models the finite-input magnitude path of the
hardware `__fp16` store that the source's `storeAsF16` compiles to. -/
def roundMag (M EB : Nat) : Nat :=
  if M = 0 then 0
  else if 316 ≤ flog2 M + EB then 31744
  else if qof M EB = 0 then 0
  else if gBof M EB = 276 then qof M EB
  else if qof M EB = 2^11 then
    (if 316 ≤ gBof M EB + 11 then 31744 else (gBof M EB - 274) * 2^10)
  else (gBof M EB - 275) * 2^10 + (qof M EB - 2^10)

/-- Embedding of `loadFromF16`: widen a binary16 bit pattern `b` to the
binary32 bit pattern of the same value.  Subnormal binary16 inputs
(exponent field 0, mantissa nonzero) are normalized: the mantissa is
shifted up to the leading bit and the exponent adjusted.  Exponent field
31 maps to infinity (mantissa 0) or NaN (mantissa nonzero, payload
shifted into the high mantissa bits). -/
def loadFromF16 (b : Nat) : Nat :=
  let s := b / 2^15 % 2
  let e := b / 2^10 % 32
  let m := b % 2^10
  if e = 0 then
    (if m = 0 then s * 2^31
     else s * 2^31 + (flog2 m + 103) * 2^23 + (m * 2^(23 - flog2 m) - 2^23))
  else if e = 31 then s * 2^31 + 255 * 2^23 + m * 2^13
  else s * 2^31 + (e + 112) * 2^23 + m * 2^13

/-- Embedding of `storeAsF16` (value computation): narrow a binary32 bit
pattern `v` to the binary16 bit pattern written through the pointer.
Finite inputs go through `roundMag` (round to nearest, ties to even,
overflow to signed infinity, underflow to signed zero); infinities map to
signed infinity; NaNs map to a quiet NaN with truncated payload. -/
def storeAsF16 (v : Nat) : Nat :=
  let s := v / 2^31 % 2
  let e := v / 2^23 % 256
  let m := v % 2^23
  if e = 255 then
    (if m = 0 then s * 2^15 + 31744
     else s * 2^15 + 31744 + 512 + m / 2^13 % 512)
  else if e = 0 then s * 2^15 + roundMag m 151
  else s * 2^15 + roundMag (2^23 + m) (e + 150)

/-- Modelled from the spec: the side effect of `storeAsF16` on memory.
The source writes the 16-bit result through the caller-supplied pointer
(`*(__fp16 *)pointer = value`); the spec states the only side effect is
overwriting that 2-byte destination slot.  Memory is a byte map
`Nat → Nat`; the two bytes at `ptr` and `ptr + 1` receive the result and
every other address is untouched. -/
def storeAsF16Mem (value : Nat) (mem : Nat → Nat) (ptr : Nat) : Nat → Nat :=
  fun a =>
    if a = ptr then storeAsF16 value % 256
    else if a = ptr + 1 then storeAsF16 value / 256 % 256
    else mem a

/-- Magnitude of a finite binary16 pattern `p` (sign bit removed),
scaled by `2^24` so that it is an integer: subnormals are `m`, normals
are `(2^10 + m) * 2^(e-1)`. -/
def hval (p : Nat) : Nat :=
  if p / 2^10 = 0 then p % 2^10 else (2^10 + p % 2^10) * 2^(p / 2^10 - 1)

/-- Magnitude of a finite binary32 pattern `p` (sign bit removed),
scaled by `2^149` so that it is an integer. -/
def hval32 (p : Nat) : Nat :=
  if p / 2^23 = 0 then p % 2^23 else (2^23 + p % 2^23) * 2^(p / 2^23 - 1)

/-- Signed value of a finite binary16 pattern, scaled by `2^24`. -/
def sval16 (b : Nat) : Int :=
  (if b / 2^15 % 2 = 1 then -1 else 1) * hval (b % 2^15)

/-- Signed value of a finite binary32 pattern, scaled by `2^149`. -/
def sval32 (v : Nat) : Int :=
  (if v / 2^31 % 2 = 1 then -1 else 1) * hval32 (v % 2^31)

/-- Magnitude of a binary32 pattern scaled by `2^300`, the common scale
at which every finite binary16 and binary32 value is an integer. -/
def Xof (v : Nat) : Nat := hval32 (v % 2^31) * 2^151

/-- Significand field `M` of a finite binary32 pattern, as used by the
finite path of `storeAsF16` (hidden leading bit made explicit). -/
def Mof (v : Nat) : Nat :=
  if v / 2^23 % 256 = 0 then v % 2^23 else 2^23 + v % 2^23

/-- Biased (by 300) exponent `EB` of a finite binary32 pattern, as used
by the finite path of `storeAsF16`. -/
def EBof (v : Nat) : Nat :=
  if v / 2^23 % 256 = 0 then 151 else v / 2^23 % 256 + 150

/-- A binary16 pattern is a NaN: exponent field all ones, mantissa
nonzero. -/
def isNaN16 (b : Nat) : Prop := b / 2^10 % 32 = 31 ∧ b % 2^10 ≠ 0

/-- A binary32 pattern is a NaN: exponent field all ones, mantissa
nonzero. -/
def isNaN32 (v : Nat) : Prop := v / 2^23 % 256 = 255 ∧ v % 2^23 ≠ 0

instance (b : Nat) : Decidable (isNaN16 b) := by unfold isNaN16; infer_instance

instance (v : Nat) : Decidable (isNaN32 v) := by unfold isNaN32; infer_instance

/-- Distance between two naturals, the absolute value of their
difference. -/
def adist (a b : Nat) : Nat := Int.natAbs ((a : Int) - (b : Int))

theorem adist_eq (a b : Nat) : adist a b = if b ≤ a then a - b else b - a := by
  unfold adist
  split_ifs <;> omega

theorem flog2Aux_spec (fuel : Nat) : ∀ n, 1 ≤ n → n < 2^fuel →
    2^(flog2Aux fuel n) ≤ n ∧ n < 2^(flog2Aux fuel n + 1) := by
  induction fuel with
  | zero =>
    intro n h1 h2
    simp [pow_zero] at h2
    omega
  | succ fuel ih =>
    intro n h1 h2
    unfold flog2Aux
    by_cases hn : n ≤ 1
    · have hn1 : n = 1 := by omega
      subst hn1
      simp
    · rw [if_neg hn]
      have hd : 1 ≤ n / 2 := by omega
      have hd2 : n / 2 < 2^fuel := by
        have h3 : 2^(fuel+1) = 2 * 2^fuel := by rw [pow_succ]; ring
        omega
      obtain ⟨ihl, ihr⟩ := ih (n/2) hd hd2
      have e1 : 2^(flog2Aux fuel (n/2) + 1) = 2 * 2^(flog2Aux fuel (n/2)) := by
        rw [pow_succ]; ring
      have e2 : 2^(flog2Aux fuel (n/2) + 1 + 1) = 2 * 2^(flog2Aux fuel (n/2) + 1) := by
        rw [pow_succ 2 (flog2Aux fuel (n/2) + 1)]; ring
      omega

theorem flog2_spec (n : Nat) (h1 : 1 ≤ n) (h2 : n < 2^32) :
    2^(flog2 n) ≤ n ∧ n < 2^(flog2 n + 1) :=
  flog2Aux_spec 32 n h1 h2

theorem rneShift_spec (M k : Nat) (hk : 1 ≤ k) :
    (rneShift M k = M / 2^k ∧ M % 2^k ≤ 2^(k-1) ∧
      (M % 2^k = 2^(k-1) → rneShift M k % 2 = 0))
    ∨ (rneShift M k = M / 2^k + 1 ∧ 2^k - M % 2^k ≤ 2^(k-1) ∧
      (2^k - M % 2^k = 2^(k-1) → rneShift M k % 2 = 0)) := by
  have hk0 : ¬ k = 0 := by omega
  have hsplit : 2^k = 2 * 2^(k-1) := by
    have hps := pow_succ 2 (k-1)
    rw [Nat.sub_add_cancel hk] at hps
    omega
  have hlt : M % 2^k < 2^k := Nat.mod_lt _ (by positivity)
  unfold rneShift
  rw [if_neg hk0]
  split_ifs with h1 h2 h3
  · right; exact ⟨rfl, by omega, fun ht => by omega⟩
  · left; exact ⟨rfl, by omega, fun ht => by omega⟩
  · left; exact ⟨rfl, by omega, fun ht => by omega⟩
  · right; exact ⟨rfl, by omega, fun ht => by omega⟩

theorem rneShift_bounds (M k : Nat) :
    M / 2^k ≤ rneShift M k ∧ rneShift M k ≤ M / 2^k + 1 := by
  by_cases h : k = 0
  · subst h; unfold rneShift; simp
  · unfold rneShift
    rw [if_neg h]
    split_ifs <;> omega

theorem grid_min (G H X q n : Nat) (hG : G = 2 * H) (hq : adist (q * G) X ≤ H) :
    adist (q * G) X ≤ adist (n * G) X ∧
    (adist (n * G) X = adist (q * G) X → n = q ∨ adist (q * G) X = H) := by
  by_cases hnq : n = q
  · subst hnq; exact ⟨le_refl _, fun _ => Or.inl rfl⟩
  · have c1 : adist (n * G) X = Int.natAbs ((n : Int) * G - X) := by
      unfold adist; congr 1
    have c2 : adist (q * G) X = Int.natAbs ((q : Int) * G - X) := by
      unfold adist; congr 1
    have h1 : ((n : Int) * G - X) - ((q : Int) * G - X) = ((n : Int) - q) * G := by ring
    have h2 : Int.natAbs (((n : Int) - q) * G) = Int.natAbs ((n : Int) - q) * G := by
      rw [Int.natAbs_mul]; simp
    have h3 : 1 ≤ Int.natAbs ((n : Int) - q) := by omega
    have key : G ≤ adist (n * G) X + adist (q * G) X := by
      calc G = 1 * G := (one_mul G).symm
        _ ≤ Int.natAbs ((n : Int) - q) * G := Nat.mul_le_mul_right G h3
        _ = Int.natAbs (((n : Int) - q) * G) := h2.symm
        _ = Int.natAbs (((n : Int) * G - X) - ((q : Int) * G - X)) := by rw [h1]
        _ ≤ Int.natAbs ((n : Int) * G - X) + Int.natAbs ((q : Int) * G - X) :=
            Int.natAbs_sub_le _ _
        _ = adist (n * G) X + adist (q * G) X := by rw [c1, c2]
    exact ⟨by omega, fun h => Or.inr (by omega)⟩

theorem hval_id (p : Nat) (hp : p ≤ 2^11) : hval p = p := by
  unfold hval
  have he : p / 2^10 = 0 ∨ p / 2^10 = 1 ∨ p / 2^10 = 2 := by omega
  rcases he with h | h | h <;> rw [h]
  · simp; omega
  · norm_num; omega
  · norm_num; omega

theorem hval_normal (e m : Nat) (he1 : 1 ≤ e) (hm : m < 2^10) :
    hval (e * 2^10 + m) = (2^10 + m) * 2^(e-1) := by
  unfold hval
  have h1 : (e * 2^10 + m) / 2^10 = e := by omega
  have h2 : (e * 2^10 + m) % 2^10 = m := by omega
  rw [h1, h2, if_neg (by omega)]

theorem hval_succ_gt (p : Nat) (hp : p < 31744) : hval p < hval (p+1) := by
  unfold hval
  have hd : p / 2^10 ≤ 30 := by omega
  have hm : p % 2^10 < 2^10 := by omega
  by_cases hm1 : p % 2^10 = 1023
  · have h1 : (p+1) / 2^10 = p / 2^10 + 1 := by omega
    have h2 : (p+1) % 2^10 = 0 := by omega
    rw [h1, h2, if_neg (by omega : ¬ p / 2^10 + 1 = 0)]
    by_cases he0 : p / 2^10 = 0
    · rw [if_pos he0, he0]
      norm_num
      omega
    · rw [if_neg he0]
      have hE : p / 2^10 + 1 - 1 = (p / 2^10 - 1) + 1 := by omega
      have hps := pow_succ 2 (p / 2^10 - 1)
      rw [hm1, hE, hps]
      have ha : 0 < 2^(p / 2^10 - 1) := pow_pos (by norm_num) _
      nlinarith [ha]
  · have h1 : (p+1) / 2^10 = p / 2^10 := by omega
    have h2 : (p+1) % 2^10 = p % 2^10 + 1 := by omega
    rw [h1, h2]
    by_cases he0 : p / 2^10 = 0
    · rw [if_pos he0, if_pos he0]
      omega
    · rw [if_neg he0, if_neg he0]
      have ha : 0 < 2^(p / 2^10 - 1) := pow_pos (by norm_num) _
      have hlt : 2^10 + p % 2^10 < 2^10 + (p % 2^10 + 1) := by omega
      exact mul_lt_mul_of_pos_right hlt ha

theorem hval_mono : ∀ q p : Nat, p < q → q ≤ 31744 → hval p < hval q := by
  intro q
  induction q with
  | zero => intro p h _; omega
  | succ q ih =>
    intro p hpq hq
    rcases Nat.lt_succ_iff_lt_or_eq.mp hpq with h | h
    · exact lt_trans (ih p h (by omega)) (hval_succ_gt q (by omega))
    · subst h; exact hval_succ_gt p (by omega)

theorem hval_inj (p q : Nat) (hp : p ≤ 31744) (hq : q ≤ 31744) (h : hval p = hval q) :
    p = q := by
  rcases lt_trichotomy p q with hlt | heq | hgt
  · exact absurd h (Nat.ne_of_lt (hval_mono q p hlt hq))
  · exact heq
  · exact absurd h.symm (Nat.ne_of_lt (hval_mono p q hgt hp))

theorem hval_dvd (p j : Nat) (_hp : p < 31744) (hlow : 2^(j+10) ≤ hval p) :
    2^j ∣ hval p := by
  unfold hval at hlow ⊢
  by_cases he : p / 2^10 = 0
  · rw [if_pos he] at hlow
    exfalso
    have hm : p % 2^10 < 2^10 := by omega
    have h2 : (2:Nat)^10 ≤ 2^(j+10) := Nat.pow_le_pow_right (by norm_num) (by omega)
    omega
  · rw [if_neg he] at hlow ⊢
    have hm : p % 2^10 < 2^10 := by omega
    have hub : (2^10 + p % 2^10) * 2^(p/2^10 - 1) < 2^(p/2^10 - 1 + 11) := by
      have hlt : 2^10 + p % 2^10 < 2^11 := by omega
      calc (2^10 + p % 2^10) * 2^(p/2^10 - 1)
          < 2^11 * 2^(p/2^10 - 1) := mul_lt_mul_of_pos_right hlt (pow_pos (by norm_num) _)
        _ = 2^(p/2^10 - 1 + 11) := by rw [← pow_add]; ring_nf
    have hj2 : j + 10 < p/2^10 - 1 + 11 := by
      by_contra hcon
      push_neg at hcon
      have hpow : (2:Nat)^(p/2^10 - 1 + 11) ≤ 2^(j + 10) :=
        Nat.pow_le_pow_right (by norm_num) hcon
      omega
    have hjle : j ≤ p/2^10 - 1 := by omega
    exact Dvd.dvd.mul_left (pow_dvd_pow 2 hjle) _

theorem roundMag_q_le (M EB : Nat) (hM : M ≠ 0) (hM24 : M < 2^24) :
    qof M EB ≤ 2^11 := by
  obtain ⟨hL1, hL2⟩ := flog2_spec M (by omega)
    (lt_of_lt_of_le hM24 (Nat.pow_le_pow_right (by norm_num) (by norm_num)))
  have hgd : gBof M EB = max (flog2 M + EB - 10) 276 := rfl
  have hge : flog2 M + EB ≤ gBof M EB + 10 := by omega
  unfold qof
  by_cases hle : gBof M EB ≤ EB
  · rw [if_pos hle]
    have hexp : flog2 M + 1 + (EB - gBof M EB) ≤ 11 := by omega
    have h1 : M * 2^(EB - gBof M EB) < 2^(flog2 M + 1) * 2^(EB - gBof M EB) :=
      mul_lt_mul_of_pos_right hL2 (pow_pos (by norm_num) _)
    have h2 : (2:Nat)^(flog2 M + 1) * 2^(EB - gBof M EB)
        = 2^(flog2 M + 1 + (EB - gBof M EB)) := by rw [← pow_add]
    have h3 : (2:Nat)^(flog2 M + 1 + (EB - gBof M EB)) ≤ 2^11 :=
      Nat.pow_le_pow_right (by norm_num) hexp
    omega
  · rw [if_neg hle]
    have hexp : flog2 M + 1 ≤ 11 + (gBof M EB - EB) := by omega
    have hdiv : M / 2^(gBof M EB - EB) < 2^11 := by
      rw [Nat.div_lt_iff_lt_mul (pow_pos (by norm_num) _)]
      calc M < 2^(flog2 M + 1) := hL2
        _ ≤ 2^(11 + (gBof M EB - EB)) := Nat.pow_le_pow_right (by norm_num) hexp
        _ = 2^11 * 2^(gBof M EB - EB) := by rw [← pow_add]
    obtain ⟨hb1, hb2⟩ := rneShift_bounds M (gBof M EB - EB)
    omega

theorem roundMag_q_ge (M EB : Nat) (hM : M ≠ 0) (hM24 : M < 2^24)
    (hg : gBof M EB ≠ 276) : 2^10 ≤ qof M EB := by
  obtain ⟨hL1, hL2⟩ := flog2_spec M (by omega)
    (lt_of_lt_of_le hM24 (Nat.pow_le_pow_right (by norm_num) (by norm_num)))
  have hgd : gBof M EB = max (flog2 M + EB - 10) 276 := rfl
  have hgl : gBof M EB = flog2 M + EB - 10 ∧ 277 ≤ gBof M EB := by omega
  unfold qof
  by_cases hle : gBof M EB ≤ EB
  · rw [if_pos hle]
    have hexp : 10 ≤ flog2 M + (EB - gBof M EB) := by omega
    calc (2:Nat)^10 ≤ 2^(flog2 M + (EB - gBof M EB)) :=
          Nat.pow_le_pow_right (by norm_num) hexp
      _ = 2^(flog2 M) * 2^(EB - gBof M EB) := by rw [← pow_add]
      _ ≤ M * 2^(EB - gBof M EB) :=
          Nat.mul_le_mul_right _ hL1
  · rw [if_neg hle]
    have hdiv : 2^10 ≤ M / 2^(gBof M EB - EB) := by
      rw [Nat.le_div_iff_mul_le (pow_pos (by norm_num) _)]
      calc (2:Nat)^10 * 2^(gBof M EB - EB) = 2^(10 + (gBof M EB - EB)) := by rw [← pow_add]
        _ ≤ 2^(flog2 M) := Nat.pow_le_pow_right (by norm_num) (by omega)
        _ ≤ M := hL1
    obtain ⟨hb1, hb2⟩ := rneShift_bounds M (gBof M EB - EB)
    omega

theorem qof_dist (M EB : Nat) (_hM : M ≠ 0) :
    adist (qof M EB * 2^(gBof M EB)) (M * 2^EB) ≤ 2^(gBof M EB - 1) ∧
    (adist (qof M EB * 2^(gBof M EB)) (M * 2^EB) = 2^(gBof M EB - 1) →
      qof M EB % 2 = 0) := by
  have hgB : 276 ≤ gBof M EB := le_max_right _ _
  by_cases hle : gBof M EB ≤ EB
  · have hev : qof M EB * 2^(gBof M EB) = M * 2^EB := by
      unfold qof
      rw [if_pos hle, mul_assoc, ← pow_add]
      congr 2
      omega
    have h0 : adist (M * 2^EB) (M * 2^EB) = 0 := by rw [adist_eq]; simp
    rw [hev, h0]
    have hp : 0 < 2^(gBof M EB - 1) := pow_pos (by norm_num) _
    exact ⟨Nat.zero_le _, fun h => absurd h.symm (by omega)⟩
  · have hEB : EB < gBof M EB := by omega
    have hk1 : 1 ≤ gBof M EB - EB := by omega
    have hqe : qof M EB = rneShift M (gBof M EB - EB) := by
      unfold qof; rw [if_neg hle]
    have hdm := Nat.div_add_mod M (2^(gBof M EB - EB))
    have hdecomp : M * 2^EB
        = (M / 2^(gBof M EB - EB)) * 2^(gBof M EB)
          + (M % 2^(gBof M EB - EB)) * 2^EB := by
      calc M * 2^EB
          = (2^(gBof M EB - EB) * (M / 2^(gBof M EB - EB))
              + M % 2^(gBof M EB - EB)) * 2^EB := by rw [hdm]
        _ = (M / 2^(gBof M EB - EB)) * (2^(gBof M EB - EB) * 2^EB)
              + (M % 2^(gBof M EB - EB)) * 2^EB := by ring
        _ = _ := by rw [← pow_add]; congr 3; omega
    have hscale : 2^(gBof M EB - EB - 1) * 2^EB = 2^(gBof M EB - 1) := by
      rw [← pow_add]; congr 1; omega
    have hscale2 : 2^(gBof M EB - EB) * 2^EB = 2^(gBof M EB) := by
      rw [← pow_add]; congr 1; omega
    have hrlt : M % 2^(gBof M EB - EB) < 2^(gBof M EB - EB) :=
      Nat.mod_lt _ (by positivity)
    rcases rneShift_spec M (gBof M EB - EB) hk1 with ⟨hq, hr, htie⟩ | ⟨hq, hr, htie⟩
    · rw [hqe, hq]
      have hdist : adist ((M / 2^(gBof M EB - EB)) * 2^(gBof M EB)) (M * 2^EB)
          = (M % 2^(gBof M EB - EB)) * 2^EB := by
        rw [adist_eq, hdecomp]
        split_ifs <;> omega
      rw [hdist]
      constructor
      · calc (M % 2^(gBof M EB - EB)) * 2^EB
            ≤ 2^(gBof M EB - EB - 1) * 2^EB := Nat.mul_le_mul_right _ hr
          _ = 2^(gBof M EB - 1) := hscale
      · intro h
        rw [← hscale] at h
        have hre : M % 2^(gBof M EB - EB) = 2^(gBof M EB - EB - 1) :=
          Nat.eq_of_mul_eq_mul_right (pow_pos (by norm_num) EB) h
        have hgoal := htie hre
        rw [hq] at hgoal
        exact hgoal
    · rw [hqe, hq]
      have hsub : (M / 2^(gBof M EB - EB) + 1) * 2^(gBof M EB)
          = (M / 2^(gBof M EB - EB)) * 2^(gBof M EB) + 2^(gBof M EB) := by ring
      have hband : (M % 2^(gBof M EB - EB)) * 2^EB ≤ 2^(gBof M EB) := by
        rw [← hscale2]
        exact Nat.mul_le_mul_right _ (le_of_lt hrlt)
      have hdist : adist ((M / 2^(gBof M EB - EB) + 1) * 2^(gBof M EB)) (M * 2^EB)
          = 2^(gBof M EB) - (M % 2^(gBof M EB - EB)) * 2^EB := by
        rw [adist_eq, hdecomp, hsub]
        split_ifs <;> omega
      rw [hdist]
      have heq2 : 2^(gBof M EB) - (M % 2^(gBof M EB - EB)) * 2^EB
          = (2^(gBof M EB - EB) - M % 2^(gBof M EB - EB)) * 2^EB := by
        rw [Nat.sub_mul, hscale2]
      rw [heq2]
      constructor
      · calc (2^(gBof M EB - EB) - M % 2^(gBof M EB - EB)) * 2^EB
            ≤ 2^(gBof M EB - EB - 1) * 2^EB := Nat.mul_le_mul_right _ hr
          _ = 2^(gBof M EB - 1) := hscale
      · intro h
        rw [← hscale] at h
        have hre : 2^(gBof M EB - EB) - M % 2^(gBof M EB - EB)
            = 2^(gBof M EB - EB - 1) :=
          Nat.eq_of_mul_eq_mul_right (pow_pos (by norm_num) EB) h
        have hgoal := htie hre
        rw [hq] at hgoal
        exact hgoal

theorem roundMag_cases (M EB : Nat) (hM : M ≠ 0) (hM24 : M < 2^24)
    (hov : ¬ 316 ≤ flog2 M + EB) :
    (roundMag M EB = 31744 ∧ qof M EB = 2^11 ∧ 316 ≤ gBof M EB + 11)
    ∨ (roundMag M EB ≤ 31743 ∧
       hval (roundMag M EB) * 2^276 = qof M EB * 2^(gBof M EB) ∧
       roundMag M EB % 2 = qof M EB % 2 ∧
       (roundMag M EB = 0 ↔ qof M EB = 0) ∧
       ¬ (qof M EB = 2^11 ∧ 316 ≤ gBof M EB + 11)) := by
  have hgd : gBof M EB = max (flog2 M + EB - 10) 276 := rfl
  have hqle := roundMag_q_le M EB hM hM24
  unfold roundMag
  rw [if_neg hM, if_neg hov]
  by_cases hq0 : qof M EB = 0
  · rw [if_pos hq0]
    right
    refine ⟨by norm_num, ?_, by omega, by omega, by omega⟩
    rw [hval_id 0 (by norm_num), hq0]
    ring
  · rw [if_neg hq0]
    by_cases hg276 : gBof M EB = 276
    · rw [if_pos hg276]
      right
      refine ⟨by omega, ?_, rfl, by omega, by omega⟩
      rw [hval_id (qof M EB) hqle, hg276]
    · rw [if_neg hg276]
      have hqge := roundMag_q_ge M EB hM hM24 hg276
      have hgge : 277 ≤ gBof M EB ∧ gBof M EB = flog2 M + EB - 10 := by omega
      have hgle : gBof M EB ≤ 305 := by omega
      by_cases hq11 : qof M EB = 2^11
      · rw [if_pos hq11]
        by_cases hovf : 316 ≤ gBof M EB + 11
        · rw [if_pos hovf]
          exact Or.inl ⟨rfl, hq11, hovf⟩
        · rw [if_neg hovf]
          right
          have hgle2 : gBof M EB ≤ 304 := by omega
          refine ⟨by omega, ?_, by omega, by omega, by omega⟩
          have harg : (gBof M EB - 274) * 2^10 = (gBof M EB - 274) * 2^10 + 0 := by
            omega
          rw [harg, hval_normal (gBof M EB - 274) 0 (by omega) (by norm_num), hq11]
          have he1 : (2:Nat)^10 + 0 = 2^10 := by norm_num
          rw [he1]
          calc 2^10 * 2^(gBof M EB - 274 - 1) * 2^276
              = 2^(10 + (gBof M EB - 274 - 1) + 276) := by rw [← pow_add, ← pow_add]
            _ = 2^(11 + gBof M EB) := by
                rw [(by omega : 10 + (gBof M EB - 274 - 1) + 276 = 11 + gBof M EB)]
            _ = 2^11 * 2^(gBof M EB) := pow_add 2 11 (gBof M EB)
      · rw [if_neg hq11]
        right
        have hmlt : qof M EB - 2^10 < 2^10 := by omega
        refine ⟨by omega, ?_, by omega, by omega, by omega⟩
        rw [hval_normal (gBof M EB - 275) (qof M EB - 2^10) (by omega) hmlt]
        have he1 : 2^10 + (qof M EB - 2^10) = qof M EB := by omega
        rw [he1]
        calc qof M EB * 2^(gBof M EB - 275 - 1) * 2^276
            = qof M EB * 2^(gBof M EB - 275 - 1 + 276) := by rw [mul_assoc, ← pow_add]
          _ = qof M EB * 2^(gBof M EB) := by
              rw [(by omega : gBof M EB - 275 - 1 + 276 = gBof M EB)]

theorem two_pow_split (a : Nat) (h : 1 ≤ a) : (2:Nat)^a = 2 * 2^(a-1) := by
  have hps := pow_succ 2 (a-1)
  rw [Nat.sub_add_cancel h] at hps
  omega

theorem roundMag_le (M EB : Nat) (hM24 : M < 2^24) : roundMag M EB ≤ 31744 := by
  by_cases hM : M = 0
  · subst hM; unfold roundMag; simp
  · by_cases hov : 316 ≤ flog2 M + EB
    · unfold roundMag
      rw [if_neg hM, if_pos hov]
    · rcases roundMag_cases M EB hM hM24 hov with ⟨h, _, _⟩ | ⟨h, _⟩
      · omega
      · omega

theorem X_bounds (M EB : Nat) (hM : M ≠ 0) (hM24 : M < 2^24) :
    2^(flog2 M + EB) ≤ M * 2^EB ∧ M * 2^EB < 2^(flog2 M + EB + 1) := by
  obtain ⟨hL1, hL2⟩ := flog2_spec M (by omega)
    (lt_of_lt_of_le hM24 (Nat.pow_le_pow_right (by norm_num) (by norm_num)))
  constructor
  · calc 2^(flog2 M + EB) = 2^(flog2 M) * 2^EB := pow_add 2 _ _
      _ ≤ M * 2^EB := Nat.mul_le_mul_right _ hL1
  · calc M * 2^EB < 2^(flog2 M + 1) * 2^EB :=
        mul_lt_mul_of_pos_right hL2 (pow_pos (by norm_num) _)
      _ = 2^(flog2 M + EB + 1) := by
        rw [← pow_add, (by omega : flog2 M + 1 + EB = flog2 M + EB + 1)]

theorem threshold_eq : 65520 * 2^300 = 2^316 - 2^304 := by
  have h1 : (2:Nat)^316 = 65536 * 2^300 := by
    rw [(by norm_num : (316:Nat) = 16 + 300), pow_add]
    norm_num
  have h2 : (2:Nat)^304 = 16 * 2^300 := by
    rw [(by norm_num : (304:Nat) = 4 + 300), pow_add]
    norm_num
  omega

theorem roundMag_overflow_iff (M EB : Nat) (hM24 : M < 2^24) :
    65520 * 2^300 ≤ M * 2^EB ↔ roundMag M EB = 31744 := by
  have hth := threshold_eq
  by_cases hM : M = 0
  · subst hM
    have hrm : roundMag 0 EB = 0 := by unfold roundMag; exact if_pos rfl
    have hpos : 0 < 65520 * 2^300 := by positivity
    rw [hrm]
    constructor
    · intro h; exfalso; omega
    · intro h; exfalso; omega
  · obtain ⟨hX1, hX2⟩ := X_bounds M EB hM hM24
    by_cases hov : 316 ≤ flog2 M + EB
    · have hrm : roundMag M EB = 31744 := by
        unfold roundMag; rw [if_neg hM, if_pos hov]
      have h316 : (2:Nat)^316 ≤ 2^(flog2 M + EB) :=
        Nat.pow_le_pow_right (by norm_num) hov
      rw [hrm]
      exact ⟨fun _ => rfl, fun _ => by omega⟩
    · have hgd : gBof M EB = max (flog2 M + EB - 10) 276 := rfl
      have hup : 2^(flog2 M + EB + 1) ≤ 2^316 :=
        Nat.pow_le_pow_right (by norm_num) (by omega)
      have hqd := qof_dist M EB hM
      rcases roundMag_cases M EB hM hM24 hov with ⟨hrm, hq11, hovf⟩ | ⟨hle, hcorr, hpar, hz, hnovf⟩
      · -- overflow result: gB = 305, L + EB = 315, X ≥ 2^316 - 2^304
        have hg305 : gBof M EB = 305 ∧ flog2 M + EB = 315 := by omega
        rw [hrm]
        refine ⟨fun _ => rfl, fun _ => ?_⟩
        rw [hg305.1, hq11] at hqd
        rw [(by norm_num : (305:Nat) - 1 = 304)] at hqd
        have he : (2:Nat)^11 * 2^305 = 2^316 := by
          rw [← pow_add]
        have hd1 := hqd.1
        rw [he, adist_eq] at hd1
        have hXlt : M * 2^EB < 2^316 := by
          have := hg305.2
          omega
        split_ifs at hd1 <;> omega
      · -- finite result: X must be below the threshold
        constructor
        · intro hthr
          exfalso
          have h315 : 2^(flog2 M + EB + 1) ≤ 2^315 ∨ flog2 M + EB = 315 := by
            rcases Nat.lt_or_ge (flog2 M + EB) 315 with h | h
            · exact Or.inl (Nat.pow_le_pow_right (by norm_num) (by omega))
            · exact Or.inr (by omega)
          have h315' : (2:Nat)^304 ≤ 2^315 := Nat.pow_le_pow_right (by norm_num) (by norm_num)
          have h316' : (2:Nat)^315 * 2 = 2^316 := by
            rw [← pow_succ]
          have hLEB : flog2 M + EB = 315 := by
            rcases h315 with h | h
            · exfalso; omega
            · exact h
          have hg305 : gBof M EB = 305 := by omega
          by_cases hq11 : qof M EB = 2^11
          · exact hnovf ⟨hq11, by omega⟩
          · have hqle := roundMag_q_le M EB hM hM24
            rw [hg305] at hqd
            rw [(by norm_num : (305:Nat) - 1 = 304)] at hqd
            have hYle : qof M EB * 2^305 ≤ (2^11 - 1) * 2^305 :=
              Nat.mul_le_mul_right _ (by omega)
            have hcomp : ((2:Nat)^11 - 1) * 2^305 = 2^316 - 2^305 := by
              rw [Nat.sub_mul, one_mul, ← pow_add]
            have hn305 : (2:Nat)^305 = 2 * 2^304 := two_pow_split 305 (by norm_num)
            have hn316 : (2:Nat)^316 = 4096 * 2^304 := by
              rw [(by norm_num : (316:Nat) = 12 + 304), pow_add]
              norm_num
            have hXlt : M * 2^EB < 2^316 := by omega
            have hD := adist_eq (qof M EB * 2^305) (M * 2^EB)
            have hd1 := hqd.1
            rw [hD] at hd1
            split_ifs at hD with hc
            · -- q·2^305 ≥ X: but q·2^305 ≤ 2^316 - 2^305 < 2^316 - 2^304 ≤ X
              exfalso
              omega
            · -- dist = X - q·2^305 ≥ 2^304, hence tie
              have hDeq : adist (qof M EB * 2^305) (M * 2^EB) = 2^304 := by omega
              have heven := hqd.2 hDeq
              have hYeq : qof M EB * 2^305 = (2^11 - 1) * 2^305 := by omega
              have hqeq : qof M EB = 2^11 - 1 :=
                Nat.eq_of_mul_eq_mul_right (pow_pos (by norm_num) 305) hYeq
              omega
        · intro h
          exfalso
          omega

theorem roundMag_zero_iff (M EB : Nat) (hM24 : M < 2^24) :
    roundMag M EB = 0 ↔ M * 2^EB ≤ 2^275 := by
  by_cases hM : M = 0
  · subst hM
    have hrm : roundMag 0 EB = 0 := by unfold roundMag; exact if_pos rfl
    rw [hrm]
    simp
  · obtain ⟨hX1, hX2⟩ := X_bounds M EB hM hM24
    by_cases hov : 316 ≤ flog2 M + EB
    · have hrm : roundMag M EB = 31744 := by
        unfold roundMag; rw [if_neg hM, if_pos hov]
      have h316 : (2:Nat)^316 ≤ 2^(flog2 M + EB) :=
        Nat.pow_le_pow_right (by norm_num) hov
      have h275 : (2:Nat)^275 < 2^316 :=
        Nat.pow_lt_pow_right (by norm_num) (by norm_num)
      rw [hrm]
      exact ⟨fun h => by omega, fun h => by omega⟩
    · have hgd : gBof M EB = max (flog2 M + EB - 10) 276 := rfl
      have hqd := qof_dist M EB hM
      rcases roundMag_cases M EB hM hM24 hov with ⟨hrm, hq11, hovf⟩ | ⟨hle, hcorr, hpar, hz, hnovf⟩
      · -- overflow: X ≥ 2^315 > 2^275
        have hLEB : 315 ≤ flog2 M + EB := by omega
        have h315 : (2:Nat)^315 ≤ 2^(flog2 M + EB) :=
          Nat.pow_le_pow_right (by norm_num) hLEB
        have h275 : (2:Nat)^275 < 2^315 :=
          Nat.pow_lt_pow_right (by norm_num) (by norm_num)
        rw [hrm]
        exact ⟨fun h => by omega, fun h => by omega⟩
      · constructor
        · intro h0
          have hq0 : qof M EB = 0 := hz.mp h0
          have hg276 : gBof M EB = 276 := by
            by_contra hg
            have := roundMag_q_ge M EB hM hM24 hg
            omega
          have hd1 := hqd.1
          rw [hq0, hg276, zero_mul] at hd1
          rw [(by norm_num : (276:Nat) - 1 = 275)] at hd1
          have hz0 : adist 0 (M * 2^EB) = M * 2^EB := by
            rw [adist_eq]; split_ifs <;> omega
          omega
        · intro hXle
          have h276 : (2:Nat)^276 = 2 * 2^275 := two_pow_split 276 (by norm_num)
          have hLEB : flog2 M + EB ≤ 275 := by
            by_contra hc
            push_neg at hc
            have : (2:Nat)^276 ≤ 2^(flog2 M + EB) :=
              Nat.pow_le_pow_right (by norm_num) (by omega)
            omega
          have hg276 : gBof M EB = 276 := by omega
          rw [hz]
          by_contra hq0
          have hq1 : 1 ≤ qof M EB := by omega
          rw [hg276] at hqd
          rw [(by norm_num : (276:Nat) - 1 = 275)] at hqd
          have hY1 : 2^276 ≤ qof M EB * 2^276 :=
            Nat.le_mul_of_pos_left _ (by omega)
          have hD := adist_eq (qof M EB * 2^276) (M * 2^EB)
          have hd1 := hqd.1
          rw [hD] at hd1
          split_ifs at hD with hc
          · have hDeq : adist (qof M EB * 2^276) (M * 2^EB) = 2^275 := by omega
            have heven := hqd.2 hDeq
            have hYle : qof M EB * 2^276 ≤ 2^276 := by omega
            have h1m : (1:Nat) * 2^276 = 2^276 := one_mul _
            have hmul : qof M EB * 2^276 ≤ 1 * 2^276 := by omega
            have hqle1 : qof M EB ≤ 1 :=
              Nat.le_of_mul_le_mul_right hmul (pow_pos (by norm_num) 276)
            omega
          · exfalso
            omega

theorem roundMag_nearest (M EB : Nat) (hM24 : M < 2^24) (p : Nat) (hp : p < 31744)
    (hlt : roundMag M EB < 31744) :
    adist (hval (roundMag M EB) * 2^276) (M * 2^EB) ≤ adist (hval p * 2^276) (M * 2^EB)
    ∧ (adist (hval p * 2^276) (M * 2^EB) = adist (hval (roundMag M EB) * 2^276) (M * 2^EB)
        → p = roundMag M EB ∨ roundMag M EB % 2 = 0) := by
  by_cases hM : M = 0
  · subst hM
    have hrm : roundMag 0 EB = 0 := by unfold roundMag; exact if_pos rfl
    rw [hrm, hval_id 0 (by norm_num), zero_mul, zero_mul]
    have hz0 : adist 0 0 = 0 := by rw [adist_eq]; simp
    rw [hz0]
    refine ⟨Nat.zero_le _, fun h => ?_⟩
    have hple : hval p * 2^276 = 0 := by
      rw [adist_eq] at h
      split_ifs at h <;> omega
    have hp0 : hval p = 0 := by
      rcases Nat.mul_eq_zero.mp hple with h0 | h0
      · exact h0
      · exact absurd h0 (Nat.pos_iff_ne_zero.mp (pow_pos (by norm_num) 276))
    left
    have h00 : hval 0 = 0 := hval_id 0 (by norm_num)
    exact hval_inj p 0 (by omega) (by norm_num) (by omega)
  · by_cases hov : 316 ≤ flog2 M + EB
    · exfalso
      have hrm : roundMag M EB = 31744 := by
        unfold roundMag; rw [if_neg hM, if_pos hov]
      omega
    · obtain ⟨hX1, hX2⟩ := X_bounds M EB hM hM24
      have hgd : gBof M EB = max (flog2 M + EB - 10) 276 := rfl
      have hqd := qof_dist M EB hM
      rcases roundMag_cases M EB hM hM24 hov with ⟨hrm, _, _⟩ | ⟨hle, hcorr, hpar, hz, hnovf⟩
      · exfalso; omega
      · rw [hcorr]
        by_cases hg276 : gBof M EB = 276
        · rw [hg276]
          rw [hg276] at hqd hcorr
          rw [(by norm_num : (276:Nat) - 1 = 275)] at hqd
          have hG : (2:Nat)^276 = 2 * 2^275 := two_pow_split 276 (by norm_num)
          obtain ⟨hmin, htie⟩ :=
            grid_min (2^276) (2^275) (M * 2^EB) (qof M EB) (hval p) hG hqd.1
          refine ⟨hmin, fun h => ?_⟩
          rcases htie h with he | he
          · left
            have hrq : hval (roundMag M EB) = qof M EB :=
              Nat.eq_of_mul_eq_mul_right (pow_pos (by norm_num) 276) hcorr
            exact hval_inj p (roundMag M EB) (by omega) (by omega) (by omega)
          · right
            rw [hpar]
            exact hqd.2 he
        · have hq10 := roundMag_q_ge M EB hM hM24 hg276
          have hq11 := roundMag_q_le M EB hM hM24
          have hgB : 276 ≤ gBof M EB := le_max_right _ _
          have hG : (2:Nat)^(gBof M EB) = 2 * 2^(gBof M EB - 1) :=
            two_pow_split (gBof M EB) (by omega)
          by_cases hpge : 2^(gBof M EB - 276 + 10) ≤ hval p
          · obtain ⟨n, hn⟩ := hval_dvd p (gBof M EB - 276) hp hpge
            have hnp : hval p * 2^276 = n * 2^(gBof M EB) := by
              rw [hn]
              calc 2^(gBof M EB - 276) * n * 2^276
                  = n * (2^(gBof M EB - 276) * 2^276) := by ring
                _ = n * 2^(gBof M EB) := by
                    rw [← pow_add, (by omega : gBof M EB - 276 + 276 = gBof M EB)]
            rw [hnp]
            obtain ⟨hmin, htie⟩ :=
              grid_min (2^(gBof M EB)) (2^(gBof M EB - 1)) (M * 2^EB) (qof M EB) n hG hqd.1
            refine ⟨hmin, fun h => ?_⟩
            rcases htie h with he | he
            · left
              have hpq : hval p * 2^276 = hval (roundMag M EB) * 2^276 := by
                rw [hnp, hcorr, he]
              have hpq2 : hval p = hval (roundMag M EB) :=
                Nat.eq_of_mul_eq_mul_right (pow_pos (by norm_num) 276) hpq
              exact hval_inj p (roundMag M EB) (by omega) (by omega) hpq2
            · right
              rw [hpar]
              exact hqd.2 he
          · push_neg at hpge
            have hBle : 2^(gBof M EB + 10) ≤ M * 2^EB := by
              have hexp : gBof M EB + 10 = flog2 M + EB := by omega
              rw [hexp]
              exact hX1
            have hvp : hval p * 2^276 < 2^(gBof M EB + 10) := by
              calc hval p * 2^276 < 2^(gBof M EB - 276 + 10) * 2^276 :=
                  mul_lt_mul_of_pos_right hpge (pow_pos (by norm_num) _)
                _ = 2^(gBof M EB + 10) := by
                    rw [← pow_add, (by omega : gBof M EB - 276 + 10 + 276 = gBof M EB + 10)]
            obtain ⟨hminB, _⟩ :=
              grid_min (2^(gBof M EB)) (2^(gBof M EB - 1)) (M * 2^EB) (qof M EB) (2^10) hG hqd.1
            have hBeq : (2:Nat)^10 * 2^(gBof M EB) = 2^(gBof M EB + 10) := by
              rw [← pow_add, (by omega : 10 + gBof M EB = gBof M EB + 10)]
            have hstrict : adist (qof M EB * 2^(gBof M EB)) (M * 2^EB)
                < adist (hval p * 2^276) (M * 2^EB) := by
              refine lt_of_le_of_lt hminB ?_
              rw [hBeq, adist_eq, adist_eq]
              split_ifs <;> omega
            exact ⟨le_of_lt hstrict, fun h => by omega⟩

theorem loadFromF16_eq_zero (b : Nat) (he0 : b / 2^10 % 32 = 0) (hm : b % 2^10 = 0) :
    loadFromF16 b = b/2^15%2 * 2^31 := by
  simp only [loadFromF16]
  rw [if_pos he0, if_pos hm]

theorem loadFromF16_eq_subn (b : Nat) (he0 : b / 2^10 % 32 = 0) (hm : ¬ b % 2^10 = 0) :
    loadFromF16 b = b/2^15%2 * 2^31 + (flog2 (b%2^10) + 103) * 2^23
      + (b%2^10 * 2^(23 - flog2 (b%2^10)) - 2^23) := by
  simp only [loadFromF16]
  rw [if_pos he0, if_neg hm]

theorem loadFromF16_eq_normal (b : Nat) (he0 : ¬ b / 2^10 % 32 = 0)
    (he31 : ¬ b / 2^10 % 32 = 31) :
    loadFromF16 b = b/2^15%2 * 2^31 + (b/2^10%32 + 112) * 2^23 + b%2^10 * 2^13 := by
  simp only [loadFromF16]
  rw [if_neg he0, if_neg he31]

theorem loadFromF16_eq_spec (b : Nat) (he31 : b / 2^10 % 32 = 31) :
    loadFromF16 b = b/2^15%2 * 2^31 + 255 * 2^23 + b%2^10 * 2^13 := by
  simp only [loadFromF16]
  rw [if_neg (by omega), if_pos he31]

theorem storeAsF16_eq_finite (v : Nat) (hfin : ¬ v / 2^23 % 256 = 255) :
    storeAsF16 v = v/2^31%2 * 2^15 + roundMag (Mof v) (EBof v) := by
  simp only [storeAsF16, Mof, EBof]
  split_ifs <;> rfl

theorem storeAsF16_eq_nan (v : Nat) (he : v / 2^23 % 256 = 255) (hm : ¬ v % 2^23 = 0) :
    storeAsF16 v = v/2^31%2 * 2^15 + 31744 + 512 + v % 2^23 / 2^13 % 512 := by
  simp only [storeAsF16]
  rw [if_pos he, if_neg hm]

theorem storeAsF16_eq_inf (v : Nat) (he : v / 2^23 % 256 = 255) (hm : v % 2^23 = 0) :
    storeAsF16 v = v/2^31%2 * 2^15 + 31744 := by
  simp only [storeAsF16]
  rw [if_pos he, if_pos hm]

theorem Mof_lt (v : Nat) : Mof v < 2^24 := by
  unfold Mof
  split_ifs <;> omega

theorem Mof_X (v : Nat) (_hfin : ¬ v / 2^23 % 256 = 255) :
    Mof v * 2^(EBof v) = hval32 (v % 2^31) * 2^151 := by
  have hd : (v % 2^31) / 2^23 = v / 2^23 % 256 := by omega
  have hm : (v % 2^31) % 2^23 = v % 2^23 := by omega
  unfold Mof EBof hval32
  rw [hd, hm]
  split_ifs with h
  · rfl
  · rw [mul_assoc, ← pow_add,
      (by omega : v / 2^23 % 256 - 1 + 151 = v / 2^23 % 256 + 150)]

theorem loadFromF16_finite (b : Nat) (hb : b < 2^16) (hfin : b / 2^10 % 32 ≠ 31) :
    loadFromF16 b < 2^32 ∧ loadFromF16 b / 2^31 = b / 2^15 ∧
    loadFromF16 b / 2^23 % 256 ≠ 255 ∧
    hval32 (loadFromF16 b % 2^31) = hval (b % 2^15) * 2^125 := by
  by_cases he0 : b / 2^10 % 32 = 0
  · by_cases hm : b % 2^10 = 0
    · rw [loadFromF16_eq_zero b he0 hm]
      have hb15 : b % 2^15 = 0 := by omega
      have hmod : b/2^15%2 * 2^31 % 2^31 = 0 := by omega
      rw [hmod, hb15]
      refine ⟨by omega, by omega, by omega, ?_⟩
      rw [hval_id 0 (by norm_num)]
      have h32 : hval32 0 = 0 := rfl
      rw [h32]
      ring
    · rw [loadFromF16_eq_subn b he0 hm]
      obtain ⟨hL1, hL2⟩ := flog2_spec (b % 2^10) (by omega) (by omega)
      have hL9 : flog2 (b % 2^10) ≤ 9 := by
        by_contra hc
        push_neg at hc
        have h10 : (2:Nat)^10 ≤ 2^(flog2 (b % 2^10)) :=
          Nat.pow_le_pow_right (by norm_num) (by omega)
        omega
      have hml : 2^23 ≤ b%2^10 * 2^(23 - flog2 (b%2^10)) := by
        calc (2:Nat)^23 = 2^(flog2 (b%2^10)) * 2^(23 - flog2 (b%2^10)) := by
              rw [← pow_add, (by omega : flog2 (b%2^10) + (23 - flog2 (b%2^10)) = 23)]
          _ ≤ b%2^10 * 2^(23 - flog2 (b%2^10)) := Nat.mul_le_mul_right _ hL1
      have hmu : b%2^10 * 2^(23 - flog2 (b%2^10)) < 2^24 := by
        calc b%2^10 * 2^(23 - flog2 (b%2^10))
            < 2^(flog2 (b%2^10) + 1) * 2^(23 - flog2 (b%2^10)) :=
              mul_lt_mul_of_pos_right hL2 (pow_pos (by norm_num) _)
          _ = 2^24 := by
              rw [← pow_add,
                (by omega : flog2 (b%2^10) + 1 + (23 - flog2 (b%2^10)) = 24)]
      refine ⟨by omega, by omega, by omega, ?_⟩
      have hr : (b/2^15%2 * 2^31 + (flog2 (b%2^10) + 103) * 2^23
          + (b%2^10 * 2^(23 - flog2 (b%2^10)) - 2^23)) % 2^31
          = (flog2 (b%2^10) + 103) * 2^23
            + (b%2^10 * 2^(23 - flog2 (b%2^10)) - 2^23) := by omega
      rw [hr]
      unfold hval32
      have hdv : ((flog2 (b%2^10) + 103) * 2^23
          + (b%2^10 * 2^(23 - flog2 (b%2^10)) - 2^23)) / 2^23
          = flog2 (b%2^10) + 103 := by omega
      have hmd : ((flog2 (b%2^10) + 103) * 2^23
          + (b%2^10 * 2^(23 - flog2 (b%2^10)) - 2^23)) % 2^23
          = b%2^10 * 2^(23 - flog2 (b%2^10)) - 2^23 := by omega
      rw [hdv, hmd, if_neg (by omega)]
      have hb15 : b % 2^15 = b % 2^10 := by omega
      rw [hb15, hval_id (b % 2^10) (by omega)]
      have hA : 2^23 + (b%2^10 * 2^(23 - flog2 (b%2^10)) - 2^23)
          = b%2^10 * 2^(23 - flog2 (b%2^10)) := by omega
      rw [hA, (by omega : flog2 (b%2^10) + 103 - 1 = flog2 (b%2^10) + 102),
        mul_assoc, ← pow_add,
        (by omega : 23 - flog2 (b%2^10) + (flog2 (b%2^10) + 102) = 125)]
  · rw [loadFromF16_eq_normal b he0 hfin]
    have he30 : b / 2^10 % 32 ≤ 30 := by omega
    refine ⟨by omega, by omega, by omega, ?_⟩
    have hr : (b/2^15%2 * 2^31 + (b/2^10%32 + 112) * 2^23 + b%2^10 * 2^13) % 2^31
        = (b/2^10%32 + 112) * 2^23 + b%2^10 * 2^13 := by omega
    rw [hr]
    unfold hval32
    have hdv : ((b/2^10%32 + 112) * 2^23 + b%2^10 * 2^13) / 2^23
        = b/2^10%32 + 112 := by omega
    have hmd : ((b/2^10%32 + 112) * 2^23 + b%2^10 * 2^13) % 2^23
        = b%2^10 * 2^13 := by omega
    rw [hdv, hmd, if_neg (by omega)]
    have hb15 : b % 2^15 = b/2^10%32 * 2^10 + b % 2^10 := by omega
    rw [hb15, hval_normal (b/2^10%32) (b%2^10) (by omega) (by omega)]
    have hc : (2:Nat)^23 + b%2^10 * 2^13 = (2^10 + b%2^10) * 2^13 := by ring
    rw [hc]
    calc (2^10 + b%2^10) * 2^13 * 2^(b/2^10%32 + 112 - 1)
        = (2^10 + b%2^10) * 2^(13 + (b/2^10%32 + 111)) := by
          rw [mul_assoc, ← pow_add, (by omega : b/2^10%32 + 112 - 1 = b/2^10%32 + 111)]
      _ = (2^10 + b%2^10) * 2^(b/2^10%32 - 1) * 2^125 := by
          rw [mul_assoc, ← pow_add,
            (by omega : b/2^10%32 - 1 + 125 = 13 + (b/2^10%32 + 111))]

theorem loadFromF16_nan (b : Nat) (_hb : b < 2^16) (hnan : isNaN16 b) :
    isNaN32 (loadFromF16 b) := by
  obtain ⟨he31, hm⟩ := hnan
  rw [loadFromF16_eq_spec b he31]
  unfold isNaN32
  constructor
  · omega
  · omega

theorem storeAsF16_nanout (v : Nat) (hnan : isNaN32 v) :
    isNaN16 (storeAsF16 v) := by
  obtain ⟨he, hm⟩ := hnan
  rw [storeAsF16_eq_nan v he hm]
  unfold isNaN16
  constructor
  · omega
  · omega

theorem storeAsF16_lt_two16 (v : Nat) : storeAsF16 v < 2^16 := by
  by_cases he : v / 2^23 % 256 = 255
  · by_cases hm : v % 2^23 = 0
    · rw [storeAsF16_eq_inf v he hm]; omega
    · rw [storeAsF16_eq_nan v he hm]; omega
  · rw [storeAsF16_eq_finite v he]
    have := roundMag_le (Mof v) (EBof v) (Mof_lt v)
    omega

theorem storeAsF16_sign (v : Nat) : storeAsF16 v / 2^15 = v / 2^31 % 2 := by
  by_cases he : v / 2^23 % 256 = 255
  · by_cases hm : v % 2^23 = 0
    · rw [storeAsF16_eq_inf v he hm]; omega
    · rw [storeAsF16_eq_nan v he hm]; omega
  · rw [storeAsF16_eq_finite v he]
    have := roundMag_le (Mof v) (EBof v) (Mof_lt v)
    omega

theorem storeAsF16_not_nan (v : Nat) (h : ¬ isNaN32 v) : ¬ isNaN16 (storeAsF16 v) := by
  by_cases he : v / 2^23 % 256 = 255
  · by_cases hm : v % 2^23 = 0
    · rw [storeAsF16_eq_inf v he hm]
      intro hcon
      obtain ⟨h1, h2⟩ := hcon
      omega
    · exact absurd ⟨he, hm⟩ h
  · rw [storeAsF16_eq_finite v he]
    have hle := roundMag_le (Mof v) (EBof v) (Mof_lt v)
    intro hcon
    obtain ⟨h1, h2⟩ := hcon
    omega

theorem roundtrip_inf (b : Nat) (hb : b < 2^16) (he : b / 2^10 % 32 = 31)
    (hm : b % 2^10 = 0) : storeAsF16 (loadFromF16 b) = b := by
  rw [loadFromF16_eq_spec b he]
  have hv255 : (b/2^15%2 * 2^31 + 255 * 2^23 + b%2^10 * 2^13) / 2^23 % 256 = 255 := by
    omega
  have hvm : (b/2^15%2 * 2^31 + 255 * 2^23 + b%2^10 * 2^13) % 2^23 = 0 := by omega
  rw [storeAsF16_eq_inf _ hv255 hvm]
  omega

theorem roundtrip_finite (b : Nat) (hb : b < 2^16) (hfin : b / 2^10 % 32 ≠ 31) :
    storeAsF16 (loadFromF16 b) = b := by
  obtain ⟨hlt, hsign, hfin32, hmag⟩ := loadFromF16_finite b hb hfin
  rw [storeAsF16_eq_finite (loadFromF16 b) hfin32]
  have hXeq : Mof (loadFromF16 b) * 2^(EBof (loadFromF16 b))
      = hval (b % 2^15) * 2^276 := by
    rw [Mof_X _ hfin32, hmag, mul_assoc, ← pow_add]
  have hpb : b % 2^15 ≤ 31743 := by omega
  have hvle : hval (b % 2^15) ≤ 2047 * 2^29 := by
    have h31743 : hval 31743 = 2047 * 2^29 := by decide
    rcases Nat.lt_or_ge (b % 2^15) 31743 with h | h
    · have := hval_mono 31743 (b % 2^15) h (by norm_num)
      omega
    · have hbe : b % 2^15 = 31743 := by omega
      rw [hbe, h31743]
  have h305 : (2:Nat)^305 = 32 * 2^300 := by
    rw [(by norm_num : (305:Nat) = 5 + 300), pow_add]
    norm_num
  have hXle : hval (b % 2^15) * 2^276 ≤ 2047 * 2^305 := by
    calc hval (b % 2^15) * 2^276 ≤ 2047 * 2^29 * 2^276 := Nat.mul_le_mul_right _ hvle
      _ = 2047 * 2^305 := by rw [mul_assoc, ← pow_add]
  have hnov : ¬ 65520 * 2^300 ≤ Mof (loadFromF16 b) * 2^(EBof (loadFromF16 b)) := by
    rw [hXeq]
    omega
  have hne : roundMag (Mof (loadFromF16 b)) (EBof (loadFromF16 b)) ≠ 31744 := by
    intro hcon
    exact hnov ((roundMag_overflow_iff _ _ (Mof_lt _)).mpr hcon)
  have hlt31744 : roundMag (Mof (loadFromF16 b)) (EBof (loadFromF16 b)) < 31744 := by
    have := roundMag_le (Mof (loadFromF16 b)) (EBof (loadFromF16 b)) (Mof_lt _)
    omega
  obtain ⟨hmin, _⟩ := roundMag_nearest (Mof (loadFromF16 b)) (EBof (loadFromF16 b))
      (Mof_lt _) (b % 2^15) (by omega) hlt31744
  have h0 : adist (hval (b % 2^15) * 2^276)
      (Mof (loadFromF16 b) * 2^(EBof (loadFromF16 b))) = 0 := by
    rw [hXeq, adist_eq]
    simp
  rw [h0] at hmin
  have h1 : adist (hval (roundMag (Mof (loadFromF16 b)) (EBof (loadFromF16 b))) * 2^276)
      (Mof (loadFromF16 b) * 2^(EBof (loadFromF16 b))) = 0 := by omega
  rw [adist_eq] at h1
  have hdeq : hval (roundMag (Mof (loadFromF16 b)) (EBof (loadFromF16 b))) * 2^276
      = Mof (loadFromF16 b) * 2^(EBof (loadFromF16 b)) := by
    split_ifs at h1 <;> omega
  have hrm : roundMag (Mof (loadFromF16 b)) (EBof (loadFromF16 b)) = b % 2^15 := by
    apply hval_inj _ _ (by omega) (by omega)
    exact Nat.eq_of_mul_eq_mul_right (pow_pos (by norm_num) 276) (hdeq.trans hXeq)
  rw [hrm]
  omega

theorem roundtrip_not_nan (b : Nat) (hb : b < 2^16) (h : ¬ isNaN16 b) :
    storeAsF16 (loadFromF16 b) = b := by
  by_cases he : b / 2^10 % 32 = 31
  · have hm : b % 2^10 = 0 := by
      by_contra hc
      exact h ⟨he, hc⟩
    exact roundtrip_inf b hb he hm
  · exact roundtrip_finite b hb he

/-- C1: for every representable binary16 pattern `b`, encoding the decoded
value writes back exactly `b`, except that a NaN input pattern need only
produce some NaN pattern. -/
theorem spec_C1_roundtrip (b : Nat) (hb : b < 2^16) :
    (¬ isNaN16 b → storeAsF16 (loadFromF16 b) = b) ∧
    (isNaN16 b → isNaN16 (storeAsF16 (loadFromF16 b))) := by
  constructor
  · exact roundtrip_not_nan b hb
  · intro hnan
    exact storeAsF16_nanout _ (loadFromF16_nan b hb hnan)

theorem spec_C1_roundtrip_witness :
    0x3C00 < 2^16 ∧
    ((¬ isNaN16 0x3C00 → storeAsF16 (loadFromF16 0x3C00) = 0x3C00) ∧
     (isNaN16 0x3C00 → isNaN16 (storeAsF16 (loadFromF16 0x3C00)))) :=
  ⟨by decide, spec_C1_roundtrip 0x3C00 (by decide)⟩

/-- C2: every binary16 subnormal pattern (exponent field 0, nonzero
mantissa) decodes to the exact, nonzero signed widened value
(`sval32 = sval16 * 2^125`, so the sign bit is preserved); in particular
`0x0001` decodes to the binary32 pattern of `2^-24` (`0x33800000`) and
that value encodes back to `0x0001`. -/
theorem spec_C2_subnormal (b : Nat) (hb : b < 2^16) (he0 : b / 2^10 % 32 = 0)
    (hm : b % 2^10 ≠ 0) :
    sval32 (loadFromF16 b) = sval16 b * 2^125 ∧
    sval32 (loadFromF16 b) ≠ 0 ∧
    loadFromF16 0x0001 = 0x33800000 ∧ storeAsF16 0x33800000 = 0x0001 := by
  obtain ⟨hlt, hsign, _, hmag⟩ := loadFromF16_finite b hb (by omega)
  have hs : loadFromF16 b / 2^31 % 2 = b / 2^15 % 2 := by omega
  have hb15 : b % 2^15 = b % 2^10 := by omega
  have hpos : 0 < hval (b % 2^15) := by
    rw [hb15, hval_id (b % 2^10) (by omega)]
    omega
  have heq : sval32 (loadFromF16 b) = sval16 b * 2^125 := by
    unfold sval32 sval16
    rw [hs, hmag]
    split_ifs with h
    · push_cast
      ring
    · push_cast
      ring
  refine ⟨heq, ?_, by decide, by decide⟩
  rw [heq]
  have h16 : sval16 b ≠ 0 := by
    unfold sval16
    split_ifs with h
    · intro hcon
      omega
    · intro hcon
      omega
  exact mul_ne_zero h16 (pow_ne_zero 125 (by norm_num))

theorem spec_C2_subnormal_witness :
    (0x8001 < 2^16 ∧ 0x8001 / 2^10 % 32 = 0 ∧ 0x8001 % 2^10 ≠ 0) ∧
    (sval32 (loadFromF16 0x8001) = sval16 0x8001 * 2^125 ∧
     sval32 (loadFromF16 0x8001) ≠ 0 ∧
     loadFromF16 0x0001 = 0x33800000 ∧ storeAsF16 0x33800000 = 0x0001) :=
  ⟨⟨by decide, by decide, by decide⟩,
   spec_C2_subnormal 0x8001 (by decide) (by decide) (by decide)⟩

/-- C3: for every finite binary32 input, `storeAsF16` preserves the sign
bit; it writes the infinity magnitude `0x7C00` exactly when the scaled
input magnitude reaches the rounding threshold `65520 * 2^300`; it writes
magnitude zero exactly when the scaled magnitude is at most `2^275`
(round-to-nearest-even underflow); below the overflow threshold the
written magnitude is a nearest representable binary16 magnitude, with
ties broken to the even pattern; and `storeAsF16` maps 65504.0 to
`0x7BFF` and 65520.0 to `0x7C00`. -/
theorem spec_C3_store_rne :
    (∀ v : Nat, v < 2^32 → v / 2^23 % 256 ≠ 255 →
      storeAsF16 v / 2^15 = v / 2^31 ∧
      (65520 * 2^300 ≤ Xof v ↔ storeAsF16 v % 2^15 = 31744) ∧
      (storeAsF16 v % 2^15 = 0 ↔ Xof v ≤ 2^275) ∧
      (∀ p, p < 31744 → ¬ 65520 * 2^300 ≤ Xof v →
        adist (hval (storeAsF16 v % 2^15) * 2^276) (Xof v)
          ≤ adist (hval p * 2^276) (Xof v) ∧
        (adist (hval p * 2^276) (Xof v)
            = adist (hval (storeAsF16 v % 2^15) * 2^276) (Xof v)
          → p = storeAsF16 v % 2^15 ∨ storeAsF16 v % 2^15 % 2 = 0))) ∧
    storeAsF16 0x477FE000 = 0x7BFF ∧ storeAsF16 0x477FF000 = 0x7C00 := by
  refine ⟨?_, by decide, by decide⟩
  intro v hv hfin
  have hsf := storeAsF16_eq_finite v hfin
  have hX : Mof v * 2^(EBof v) = Xof v := Mof_X v hfin
  have hle := roundMag_le (Mof v) (EBof v) (Mof_lt v)
  have hmod : storeAsF16 v % 2^15 = roundMag (Mof v) (EBof v) := by
    rw [hsf]; omega
  refine ⟨?_, ?_, ?_, ?_⟩
  · have := storeAsF16_sign v
    omega
  · rw [hmod, ← hX]
    exact roundMag_overflow_iff (Mof v) (EBof v) (Mof_lt v)
  · rw [hmod, ← hX]
    exact roundMag_zero_iff (Mof v) (EBof v) (Mof_lt v)
  · intro p hp hnov
    rw [hmod, ← hX]
    rw [← hX] at hnov
    have hlt : roundMag (Mof v) (EBof v) < 31744 := by
      have hiff := roundMag_overflow_iff (Mof v) (EBof v) (Mof_lt v)
      rcases Nat.lt_or_ge (roundMag (Mof v) (EBof v)) 31744 with h | h
      · exact h
      · have heq : roundMag (Mof v) (EBof v) = 31744 := by omega
        exact absurd (hiff.mpr heq) hnov
    exact roundMag_nearest (Mof v) (EBof v) (Mof_lt v) p hp hlt

theorem spec_C3_store_rne_witness :
    (0x3F800000 < 2^32 ∧ 0x3F800000 / 2^23 % 256 ≠ 255) ∧
    (storeAsF16 0x3F800000 / 2^15 = 0x3F800000 / 2^31 ∧
     (65520 * 2^300 ≤ Xof 0x3F800000 ↔ storeAsF16 0x3F800000 % 2^15 = 31744) ∧
     (storeAsF16 0x3F800000 % 2^15 = 0 ↔ Xof 0x3F800000 ≤ 2^275) ∧
     (∀ p, p < 31744 → ¬ 65520 * 2^300 ≤ Xof 0x3F800000 →
       adist (hval (storeAsF16 0x3F800000 % 2^15) * 2^276) (Xof 0x3F800000)
         ≤ adist (hval p * 2^276) (Xof 0x3F800000) ∧
       (adist (hval p * 2^276) (Xof 0x3F800000)
           = adist (hval (storeAsF16 0x3F800000 % 2^15) * 2^276) (Xof 0x3F800000)
         → p = storeAsF16 0x3F800000 % 2^15
           ∨ storeAsF16 0x3F800000 % 2^15 % 2 = 0))) :=
  ⟨⟨by decide, by decide⟩, spec_C3_store_rne.1 0x3F800000 (by decide) (by decide)⟩

/-- C4: `loadFromF16` maps the binary16 special patterns to the binary32
special patterns: signed zeros to signed zeros, signed infinities to
signed infinities, and every NaN pattern to a NaN pattern. -/
theorem spec_C4_load_specials :
    loadFromF16 0x0000 = 0x00000000 ∧ loadFromF16 0x8000 = 0x80000000 ∧
    loadFromF16 0x7C00 = 0x7F800000 ∧ loadFromF16 0xFC00 = 0xFF800000 ∧
    (∀ b, b < 2^16 → isNaN16 b → isNaN32 (loadFromF16 b)) :=
  ⟨by decide, by decide, by decide, by decide, fun b hb hn => loadFromF16_nan b hb hn⟩

theorem spec_C4_load_specials_witness :
    (0x7E00 < 2^16 ∧ isNaN16 0x7E00) ∧ isNaN32 (loadFromF16 0x7E00) :=
  ⟨⟨by decide, by decide⟩,
   spec_C4_load_specials.2.2.2.2 0x7E00 (by decide) (by decide)⟩

/-- C5: `loadFromF16` is total on all 16-bit patterns with a well-formed
32-bit result; it preserves the sign bit, and on every finite pattern the
widened binary32 value is exactly the binary16 value (signed, via the
common scaling `sval32 = sval16 * 2^125`); in particular `0x3C00`
(1.0 in binary16) decodes to `0x3F800000` (1.0 in binary32). -/
theorem spec_C5_load_exact :
    (∀ b, b < 2^16 → loadFromF16 b < 2^32) ∧
    (∀ b, b < 2^16 → b / 2^10 % 32 ≠ 31 →
      loadFromF16 b / 2^31 = b / 2^15 ∧
      sval32 (loadFromF16 b) = sval16 b * 2^125) ∧
    loadFromF16 0x3C00 = 0x3F800000 := by
  refine ⟨?_, ?_, by decide⟩
  · intro b hb
    by_cases he : b / 2^10 % 32 = 31
    · rw [loadFromF16_eq_spec b he]
      omega
    · exact (loadFromF16_finite b hb he).1
  · intro b hb hfin
    obtain ⟨hlt, hsign, _, hmag⟩ := loadFromF16_finite b hb hfin
    refine ⟨hsign, ?_⟩
    unfold sval32 sval16
    have hs : loadFromF16 b / 2^31 % 2 = b / 2^15 % 2 := by omega
    rw [hs, hmag]
    split_ifs with h
    · push_cast
      ring
    · push_cast
      ring

theorem spec_C5_load_exact_witness :
    (0x3C00 < 2^16 ∧ 0x3C00 / 2^10 % 32 ≠ 31) ∧
    loadFromF16 0x3C00 < 2^32 ∧
    (loadFromF16 0x3C00 / 2^31 = 0x3C00 / 2^15 ∧
     sval32 (loadFromF16 0x3C00) = sval16 0x3C00 * 2^125) :=
  ⟨⟨by decide, by decide⟩, spec_C5_load_exact.1 0x3C00 (by decide),
   spec_C5_load_exact.2.1 0x3C00 (by decide) (by decide)⟩

/-- C6: every binary32 NaN input is stored as a binary16 NaN pattern
(exponent field all ones, nonzero mantissa), and positive infinity is
stored as `0x7C00`. -/
theorem spec_C6_store_nan :
    (∀ v, v < 2^32 → isNaN32 v → isNaN16 (storeAsF16 v)) ∧
    storeAsF16 0x7F800000 = 0x7C00 :=
  ⟨fun v _ hn => storeAsF16_nanout v hn, by decide⟩

theorem spec_C6_store_nan_witness :
    (0x7FC00000 < 2^32 ∧ isNaN32 0x7FC00000) ∧ isNaN16 (storeAsF16 0x7FC00000) :=
  ⟨⟨by decide, by decide⟩, spec_C6_store_nan.1 0x7FC00000 (by decide) (by decide)⟩

/-- C7: `storeAsF16` is total — every input yields a well-formed 16-bit
result — and its only memory effect is overwriting the 2-byte destination
slot: every address other than `ptr` and `ptr + 1` is unchanged. -/
theorem spec_C7_store_total_frame :
    (∀ v, storeAsF16 v < 2^16) ∧
    (∀ value mem ptr a, a ≠ ptr → a ≠ ptr + 1 →
      storeAsF16Mem value mem ptr a = mem a) := by
  refine ⟨storeAsF16_lt_two16, ?_⟩
  intro value mem ptr a h1 h2
  unfold storeAsF16Mem
  rw [if_neg h1, if_neg h2]

theorem spec_C7_store_total_frame_witness :
    storeAsF16 0x3F800000 < 2^16 ∧
    ((5 ≠ 0 ∧ 5 ≠ 0 + 1) ∧ storeAsF16Mem 0 (fun n => n) 0 5 = 5) :=
  ⟨spec_C7_store_total_frame.1 0x3F800000,
   ⟨by decide, by decide⟩,
   spec_C7_store_total_frame.2 0 (fun n => n) 0 5 (by decide) (by decide)⟩

/-- C8: `loadFromF16` is pure and deterministic: the result depends on
nothing but the 16 input bits, so any two inputs that agree on those bits
yield bitwise-identical results. -/
theorem spec_C8_load_pure (b₁ b₂ : Nat) (h : b₁ % 2^16 = b₂ % 2^16) :
    loadFromF16 b₁ = loadFromF16 b₂ := by
  have h15 : b₁ / 2^15 % 2 = b₂ / 2^15 % 2 := by omega
  have h10 : b₁ / 2^10 % 32 = b₂ / 2^10 % 32 := by omega
  have hm : b₁ % 2^10 = b₂ % 2^10 := by omega
  simp only [loadFromF16]
  rw [h15, h10, hm]

theorem spec_C8_load_pure_witness :
    0x13C00 % 2^16 = 0x3C00 % 2^16 ∧ loadFromF16 0x13C00 = loadFromF16 0x3C00 :=
  ⟨by decide, spec_C8_load_pure 0x13C00 0x3C00 (by decide)⟩

/-- C9: encoding is idempotent as a projection: for every non-NaN
binary32 input, decoding the stored pattern and storing again writes the
same 16-bit pattern. -/
theorem spec_C9_idempotent (v : Nat) (_hv : v < 2^32) (hn : ¬ isNaN32 v) :
    storeAsF16 (loadFromF16 (storeAsF16 v)) = storeAsF16 v :=
  roundtrip_not_nan (storeAsF16 v) (storeAsF16_lt_two16 v) (storeAsF16_not_nan v hn)

theorem spec_C9_idempotent_witness :
    (0x3F800001 < 2^32 ∧ ¬ isNaN32 0x3F800001) ∧
    storeAsF16 (loadFromF16 (storeAsF16 0x3F800001)) = storeAsF16 0x3F800001 :=
  ⟨⟨by decide, by decide⟩, spec_C9_idempotent 0x3F800001 (by decide) (by decide)⟩

/-- C10: `storeAsF16` preserves the sign bit for every non-NaN input:
bit 15 of the written pattern equals the sign bit of the input, including
for signed zeros, inputs that flush to zero, and infinities. -/
theorem spec_C10_sign (v : Nat) (_hv : v < 2^32) (_hn : ¬ isNaN32 v) :
    storeAsF16 v / 2^15 % 2 = v / 2^31 % 2 := by
  have := storeAsF16_sign v
  omega

theorem spec_C10_sign_witness :
    (0x80000000 < 2^32 ∧ ¬ isNaN32 0x80000000) ∧
    storeAsF16 0x80000000 / 2^15 % 2 = 0x80000000 / 2^31 % 2 :=
  ⟨⟨by decide, by decide⟩, spec_C10_sign 0x80000000 (by decide) (by decide)⟩

end HalfFloatCodec
